import Mathlib

/-!
Verification of the transcript parsing and markdown-rendering pipeline of
`publish-claude` (file `src/sessions.ts`), against its natural-language
specification.

Strings of the TypeScript source are modelled as `List Char` (`Str`): the
source manipulates strings purely as character sequences (per-character
replacement, splitting on a character, prefix tests, length-based
truncation), so a character-list embedding is exact at that granularity.
File reading and JSON parsing are external collaborators: functions that in
the source read a file receive instead the parsed line contents
(`List (Option SessionMessage)`, `none` for a blank or malformed line),
exactly as the specification's design notes prescribe for the testable
surface.  The filesystem existence check used by the path codec is passed
in as a function argument `ex : Str → Bool`, matching the specification's
"existence-check collaborator".
-/

namespace PublishClaude

/-- Character strings, modelled as lists of characters. -/
abbrev Str := List Char

/-! ## Path codec (`encodeProjectPath` / `decodeProjectPath`, sessions.ts 39-69) -/

/-- Source: `path.replace(/\//g, "-")` — every separator becomes the marker. -/
def encodeProjectPath (path : Str) : Str :=
  path.map (fun c => if c = '/' then '-' else c)

/-- JavaScript `String.prototype.split` on a single-character separator. -/
def splitChar (c : Char) : Str → List Str
  | [] => [[]]
  | x :: xs =>
    match splitChar c xs with
    | [] => [[]]
    | h :: t => if x = c then [] :: h :: t else (x :: h) :: t

/-- Source: `decodeProjectPath` (sessions.ts 43-69).  `ex` is the
`existsSync` collaborator.  First the naive decode (marker → separator) is
tried; failing that, segments are reassembled greedily, preferring an
existing new segment, then an existing marker-concatenation, defaulting to
a new segment; an all-marker token falls back to the naive decode. -/
def decodeProjectPath (ex : Str → Bool) (encoded : Str) : Str :=
  let simple := encoded.map (fun c => if c = '-' then '/' else c)
  if ex simple then simple
  else
    let parts := (splitChar '-' encoded).filter (fun p => !p.isEmpty)
    let path := parts.foldl
      (fun path part =>
        let withSlash := path ++ '/' :: part
        let withDash := if path ≠ [] then path ++ '-' :: part else part
        if ex withSlash then withSlash
        else if path ≠ [] ∧ ex withDash then withDash
        else withSlash)
      []
    if path = [] then simple else path

/-! ## Small JavaScript string helpers -/

/-- JavaScript `Array.prototype.join(sep)`. -/
def joinSep (sep : Str) : List Str → Str
  | [] => []
  | [s] => s
  | s :: rest => s ++ sep ++ joinSep sep rest

/-- JavaScript `x || d` on an optional string: `undefined` and the empty
string are falsy. -/
def jsOr (o : Option Str) (d : Str) : Str :=
  match o with
  | some s => if s = [] then d else s
  | none => d

/-- JavaScript template interpolation of a possibly-undefined string:
`undefined` prints as "undefined". -/
def jsTemplate (o : Option Str) : Str :=
  match o with
  | some s => s
  | none => "undefined".toList

/-- Whitespace recognised by the model of `String.prototype.trim`
(the source only ever trims titles built from ASCII text). -/
def isWsChar (c : Char) : Bool :=
  (c == ' ') || (c == '\t') || (c == '\n') || (c == '\r')

/-- Model of `String.prototype.trim`. -/
def trimWs (s : Str) : Str :=
  ((s.dropWhile isWsChar).reverse.dropWhile isWsChar).reverse

/-- Characters stripped from the end of a title by
`replace(/[#\n\r]+$/g, "")` (sessions.ts 412). -/
def isTitleTrail (c : Char) : Bool :=
  (c == '#') || (c == '\n') || (c == '\r')

/-- Source: `rawTitle.replace(/[#\n\r]+$/g, "")` — drop the maximal
trailing run of hash / newline characters. -/
def stripTitleTrail (s : Str) : Str :=
  (s.reverse.dropWhile isTitleTrail).reverse

/-- The backtick character (written via a string literal). -/
def btk : Char := "`".toList.headD 'x'

/-- Source: `resultText.replace(/```/g, "` ` `")` (sessions.ts 297) —
left-to-right, non-overlapping replacement of each triple-backtick run
by a spaced-out variant. -/
def esc3 : Str → Str
  | [] => []
  | [c] => [c]
  | [c1, c2] => [c1, c2]
  | c1 :: c2 :: c3 :: rest =>
    if c1 = btk ∧ c2 = btk ∧ c3 = btk then
      btk :: ' ' :: btk :: ' ' :: btk :: esc3 rest
    else c1 :: esc3 (c2 :: c3 :: rest)

/-- The truncation notice appended by the tool-result renderer. -/
def truncNotice : Str := "\n... (truncated)".toList

/-- A triple-backtick sequence. -/
def ticks3 : Str := "```".toList

/-! ## Content blocks and their renderer (`formatContentBlock`, sessions.ts 255-310) -/

/-- The `type` discriminator of a content block; `other` stands for any
unrecognised kind (the renderer's `default` branch). -/
inductive BlockType where
  | text
  | thinking
  | tool_use
  | tool_result
  | other
deriving DecidableEq

/-- A content block (interface `ContentBlock` of sessions.ts).  All
payload fields are optional, as in the source.  `input` holds the
`JSON.stringify(block.input, null, 2)` image of the tool input — the
stringifier is an external collaborator whose output the renderer embeds
verbatim.  `content` is a tool result's payload: a string or a list of
sub-blocks. -/
inductive ContentBlock where
  | mk (ctype : BlockType) (text : Option Str) (thinking : Option Str)
       (name : Option Str) (input : Str)
       (content : Option (Str ⊕ List ContentBlock))

/-- The `type` field of a content block. -/
def ContentBlock.ctype : ContentBlock → BlockType
  | .mk t _ _ _ _ _ => t

/-- The `text` field of a content block. -/
def ContentBlock.text : ContentBlock → Option Str
  | .mk _ x _ _ _ _ => x

/-- The `thinking` field of a content block. -/
def ContentBlock.thinking : ContentBlock → Option Str
  | .mk _ _ th _ _ _ => th

/-- The `name` field of a content block. -/
def ContentBlock.name : ContentBlock → Option Str
  | .mk _ _ _ n _ _ => n

/-- The (pre-stringified) `input` field of a content block. -/
def ContentBlock.input : ContentBlock → Str
  | .mk _ _ _ _ i _ => i

/-- The `content` field of a content block. -/
def ContentBlock.content : ContentBlock → Option (Str ⊕ List ContentBlock)
  | .mk _ _ _ _ _ c => c

/-- Result of rendering one content block (interface `FormattedBlock`). -/
structure FormattedBlock where
  text : Str
  isHidden : Bool
  label : Option Str
deriving DecidableEq

/-- One sub-block of an array-valued tool result, as rendered inside
`formatContentBlock` (sessions.ts 284-295): only `text`-typed sub-blocks
contribute, each truncated to 1000 characters with a notice. -/
def toolResultSub (c : ContentBlock) : Str :=
  if c.ctype = .text then
    let t := jsOr c.text []
    if t.length > 1000 then t.take 1000 ++ truncNotice else t
  else []

/-- Source: `formatContentBlock` (sessions.ts 255-310). -/
def formatContentBlock (block : ContentBlock) : FormattedBlock :=
  match block.ctype with
  | .text => ⟨jsOr block.text [], false, none⟩
  | .thinking =>
    ⟨"**Thinking:** ".toList ++ jsOr block.thinking [], true, some ("Thinking".toList)⟩
  | .tool_use =>
    ⟨"**Tool: ".toList ++ jsTemplate block.name ++ "**\n```json\n".toList
       ++ block.input ++ "\n```".toList,
     true, some (jsOr block.name ("Tool".toList))⟩
  | .tool_result =>
    let resultText :=
      match block.content with
      | some (Sum.inl s) => if s.length > 1000 then s.take 1000 ++ truncNotice else s
      | some (Sum.inr l) => joinSep ['\n'] ((l.map toolResultSub).filter (fun t => !t.isEmpty))
      | none => []
    if resultText = [] then ⟨[], true, some ("Result".toList)⟩
    else
      ⟨"**Result:**\n```\n".toList ++ esc3 resultText ++ "\n```".toList,
       true, some ("Result".toList)⟩
  | .other => ⟨[], false, none⟩

/-! ## Messages and the message renderer (`formatMessage`, sessions.ts 319-362) -/

/-- A transcript record (interface `SessionMessage`).  `type` is the raw
record discriminator string; `content` is `message.content` (a raw string
or a block list); `uuid` is optional because a parsed JSON record may lack
the field entirely (JavaScript `undefined`); `isMeta` is the record's meta
flag with JavaScript truthiness already applied.  Fields the embedded
functions never read (`message.role`, `model`, `sessionId`, `cwd`) are
omitted. -/
structure SessionMessage where
  type : Str
  content : Str ⊕ List ContentBlock
  uuid : Option Str
  timestamp : Str
  isMeta : Bool

/-- Result of rendering one message (interface `FormattedMessage`). -/
structure FormattedMessage where
  visible : Str
  hidden : Str
  hiddenLabels : List Str
  isUser : Bool
deriving DecidableEq

/-- The block-walking loop of `formatMessage` (sessions.ts 335-349):
returns (visible parts, hidden parts, hidden labels), in block order.
A block whose rendered text is empty contributes nothing; a label is
recorded only when present and non-empty (JavaScript truthiness of
`formatted.label`). -/
def collectParts : List ContentBlock → List Str × List Str × List Str
  | [] => ([], [], [])
  | b :: bs =>
    let f := formatContentBlock b
    let rest := collectParts bs
    if f.text = [] then rest
    else if f.isHidden then
      (rest.1, f.text :: rest.2.1,
        match f.label with
        | some l => if l = [] then rest.2.2 else l :: rest.2.2
        | none => rest.2.2)
    else (f.text :: rest.1, rest.2.1, rest.2.2)

/-- Source: `visibleText.split("\n").map(line => "> " + line).join("\n")`
(sessions.ts 356) — prefix every line with a blockquote marker. -/
def blockquoteJoin (v : Str) : Str :=
  joinSep ['\n'] ((splitChar '\n' v).map (fun line => "> ".toList ++ line))

/-- Source: `formatMessage` (sessions.ts 319-362). -/
def formatMessage (msg : SessionMessage) : FormattedMessage :=
  let isUser : Bool := decide (msg.type = "user".toList)
  match msg.content with
  | Sum.inl s =>
    if ("<command-name>".toList).isPrefixOf s
        || ("<local-command-stdout>".toList).isPrefixOf s then
      ⟨[], [], [], isUser⟩
    else
      ⟨if s ≠ [] then (if isUser then blockquoteJoin s else s) else [],
       [], [], isUser⟩
  | Sum.inr blocks =>
    let parts := collectParts blocks
    let visibleText := joinSep ("\n\n".toList) parts.1
    let hiddenText := joinSep ("\n\n".toList) parts.2.1
    ⟨if visibleText ≠ [] then (if isUser then blockquoteJoin visibleText else visibleText) else [],
     hiddenText, parts.2.2, isUser⟩

/-! ## Transcript reader (`parseSession`, sessions.ts 364-396)

The file is received as its list of lines, already passed through the
JSON-parsing collaborator: `none` stands for a blank or malformed line
(both silently skipped by the source). -/

/-- The line loop of `parseSession`, carrying the `seenUuids` set (a
JavaScript `Set` may contain `undefined`, hence `List (Option Str)`; only
membership is ever queried, so list order is irrelevant). -/
def parseLoop (seen : List (Option Str)) : List (Option SessionMessage) → List SessionMessage
  | [] => []
  | none :: rest => parseLoop seen rest
  | some r :: rest =>
    if r.type = "file-history-snapshot".toList then parseLoop seen rest
    else if r.isMeta then parseLoop seen rest
    else if r.type ≠ "user".toList ∧ r.type ≠ "assistant".toList then parseLoop seen rest
    else if r.uuid ∈ seen then parseLoop seen rest
    else r :: parseLoop (r.uuid :: seen) rest

/-- Source: `parseSession` (sessions.ts 364-396). -/
def parseSession (lines : List (Option SessionMessage)) : List SessionMessage :=
  parseLoop [] lines

/-- A record survives the reader's type/meta filters (everything before
duplicate suppression). -/
def keptRecord (r : SessionMessage) : Bool :=
  if r.type = "file-history-snapshot".toList then false
  else if r.isMeta then false
  else if r.type ≠ "user".toList ∧ r.type ≠ "assistant".toList then false
  else true

/-- The stream of records eligible for output, before duplicate
suppression, in file order. -/
def keptRecords (lines : List (Option SessionMessage)) : List SessionMessage :=
  (lines.filterMap id).filter keptRecord

/-- Duplicate suppression keyed on `uuid`, first occurrence wins (proof
helper: `parseLoop` equals this composed with the type/meta filter). -/
def dedupKeyed (seen : List (Option Str)) : List SessionMessage → List SessionMessage
  | [] => []
  | r :: rs => if r.uuid ∈ seen then dedupKeyed seen rs else r :: dedupKeyed (r.uuid :: seen) rs

/-! ## Collapsible sections (`formatDetailsBlock`, sessions.ts 398-403) -/

/-- JavaScript `[...new Set(l)]`: de-duplication preserving insertion
(= first-appearance) order, with the already-seen elements carried. -/
def jsSetList (seen : List Str) : List Str → List Str
  | [] => []
  | x :: xs => if x ∈ seen then jsSetList seen xs else x :: jsSetList (x :: seen) xs

/-- JavaScript `s.replace(/c/g, r)` for a single-character pattern. -/
def replaceAllChar (c : Char) (r : Str) (s : Str) : Str :=
  (s.map (fun x => if x = c then r else [x])).flatten

/-- Source: `.replace(/</g, "&lt;").replace(/>/g, "&gt;")` (sessions.ts 401). -/
def escAngle (s : Str) : Str :=
  replaceAllChar '>' ("&gt;".toList) (replaceAllChar '<' ("&lt;".toList) s)

/-- The summary line of a collapsible section:
`[...new Set(labels)].join(", ")`. -/
def detailsSummary (labels : List Str) : Str :=
  joinSep (", ".toList) (jsSetList [] labels)

/-- The body of a collapsible section: buffered texts blank-line-joined,
with angle brackets escaped. -/
def detailsBody (content : List Str) : Str :=
  escAngle (joinSep ("\n\n".toList) content)

/-- Source: `formatDetailsBlock` (sessions.ts 398-403). -/
def formatDetailsBlock (content : List Str) (labels : List Str) : Str :=
  "<details>\n<summary><em>".toList ++ detailsSummary labels
    ++ "</em></summary>\n\n".toList ++ detailsBody content
    ++ "\n\n</details>".toList

/-! ## Document assembler (`formatSessionToMarkdown`, sessions.ts 405-461) -/

/-- The horizontal-rule separator line pushed between user turns. -/
def sepLine : Str := "---\n".toList

/-- The message walk of `formatSessionToMarkdown` (sessions.ts 428-457),
carrying the pending hidden buffer, its labels, and the
`isFirstUserMessage` flag; returns the emitted lines.  A flush pushes the
collapsible block and an empty line; a visible message's own hidden
content is queued (state only) between the push of its visible text and
the trailing empty line. -/
def assembleGo (pending labels : List Str) (firstUser : Bool) :
    List FormattedMessage → List Str
  | [] => if pending ≠ [] then [formatDetailsBlock pending labels, []] else []
  | m :: rest =>
    if m.visible ≠ [] then
      let labelsAfter := if pending ≠ [] then ([] : List Str) else labels
      (if m.isUser = true ∧ firstUser = false then [sepLine] else [])
        ++ (if pending ≠ [] then [formatDetailsBlock pending labels, []] else [])
        ++ [m.visible, []]
        ++ assembleGo (if m.hidden ≠ [] then [m.hidden] else [])
            (if m.hidden ≠ [] then labelsAfter ++ m.hiddenLabels else labelsAfter)
            (if m.isUser then false else firstUser) rest
    else if m.hidden ≠ [] then
      assembleGo (pending ++ [m.hidden]) (labels ++ m.hiddenLabels) firstUser rest
    else assembleGo pending labels firstUser rest

/-- The document title: summary if present and non-empty, else a fallback
from the session id; trailing hash/newline runs stripped, then trimmed. -/
def titleOf (sessionId : Str) (summary : Option Str) : Str :=
  trimWs (stripTitleTrail (jsOr summary ("Session ".toList ++ sessionId.take 8)))

/-- Source: `formatSessionToMarkdown` (sessions.ts 405-461).  An empty
message list short-circuits to the empty document.  `projectPath` is a
parameter of the source function but is never read by its body. -/
def formatSessionToMarkdown (sessionId projectPath : Str)
    (messages : List SessionMessage) (summary : Option Str) : Str :=
  if messages.isEmpty then []
  else
    joinSep ['\n']
      (("# ".toList ++ titleOf sessionId summary ++ ['\n'])
        :: assembleGo [] [] true (messages.map formatMessage))

/-! ## Specification-side document assembly (for claim C3)

The following definitions transcribe the specification's description of
the assembler walk (spec §4.5 step 2-3): a pending buffer of
(hidden text, labels) pairs; on a visible message, separator handling,
then one flush of the whole buffer as a single collapsible section, then
the visible text, then the message's own hidden content queued for the
next flush; hidden-only messages merge into the buffer; a final flush
after the last message. -/

/-- Specification: flush the pending buffer as one collapsible section
(texts in buffer order, labels in buffer order) followed by a blank
line; an empty buffer emits nothing. -/
def flushSpec (q : List (Str × List Str)) : List Str :=
  if q = [] then []
  else [formatDetailsBlock (q.map Prod.fst) ((q.map Prod.snd).flatten), []]

/-- Specification: the hidden contribution a message queues for the next
flush — its hidden text paired with its labels, or nothing. -/
def queueOf (m : FormattedMessage) : List (Str × List Str) :=
  if m.hidden ≠ [] then [(m.hidden, m.hiddenLabels)] else []

/-- Specification-side assembler walk (claim C3's description). -/
def assembleSpec (q : List (Str × List Str)) (firstUser : Bool) :
    List FormattedMessage → List Str
  | [] => flushSpec q
  | m :: rest =>
    if m.visible ≠ [] then
      (if m.isUser = true ∧ firstUser = false then [sepLine] else [])
        ++ flushSpec q ++ [m.visible, []]
        ++ assembleSpec (queueOf m) (if m.isUser then false else firstUser) rest
    else assembleSpec (q ++ queueOf m) firstUser rest

/-! ## Session catalog sorting (`listSessions`, sessions.ts 241-246) -/

/-- A catalog entry (interface `SessionInfo`). -/
structure SessionInfo where
  sessionId : Str
  projectPath : Str
  filePath : Str
  date : Str
  messageCount : Nat
  summary : Str
deriving DecidableEq

/-- Modelled from the spec: the platform collaborator
`new Date(s).getTime()`.  A date string with a well-formed
`YYYY-MM-DD` prefix maps to a value monotone in the calendar date
(day granularity suffices for the catalog's ordering claims); anything
else — in particular the empty string produced for a transcript with no
timestamp — is an Invalid Date, i.e. NaN, modelled as `none`. -/
def jsTime (s : Str) : Option Int :=
  match s with
  | y1 :: y2 :: y3 :: y4 :: h1 :: m1 :: m2 :: h2 :: d1 :: d2 :: _ =>
    if y1.isDigit ∧ y2.isDigit ∧ y3.isDigit ∧ y4.isDigit ∧ h1 = '-'
        ∧ m1.isDigit ∧ m2.isDigit ∧ h2 = '-' ∧ d1.isDigit ∧ d2.isDigit then
      some ((((y1.toNat - 48) * 1000 + (y2.toNat - 48) * 100 + (y3.toNat - 48) * 10
              + (y4.toNat - 48)) * 10000
            + ((m1.toNat - 48) * 10 + (m2.toNat - 48)) * 100
            + ((d1.toNat - 48) * 10 + (d2.toNat - 48)) : Nat) : Int)
    else none
  | _ => none

/-- The sort comparator of `listSessions` (sessions.ts 243-245):
`new Date(b.date).getTime() - new Date(a.date).getTime()`.  Arithmetic on
NaN yields NaN, and `CompareArrayElements` (ECMAScript §23.1.3.30.2) maps
a NaN comparator value to +0, so any comparison involving an invalid date
is 0. -/
def cmpSess (a b : SessionInfo) : Int :=
  match jsTime a.date, jsTime b.date with
  | some ta, some tb => tb - ta
  | _, _ => 0

/-- Modelled from the spec: `Array.prototype.sort` is a stable comparison
sort; stable insertion, placing a later element before an earlier one
only when the comparator orders it strictly first. -/
def jsInsert (x : SessionInfo) : List SessionInfo → List SessionInfo
  | [] => [x]
  | y :: ys => if cmpSess y x < 0 then y :: jsInsert x ys else x :: y :: ys

/-- The catalog's sorting step (`sessions.sort(...)`, sessions.ts 242-245),
as a stable comparison sort over `cmpSess`. -/
def sortSessions : List SessionInfo → List SessionInfo
  | [] => []
  | x :: xs => jsInsert x (sortSessions xs)

/-! ## Sample values used as concrete instances in witnesses -/

/-- A catalog entry whose transcript has no timestamp (empty date). -/
def sessNoDate : SessionInfo := ⟨"s1".toList, [], [], [], 0, []⟩

/-- A catalog entry dated 2024-01-01. -/
def sessJan : SessionInfo := ⟨"s2".toList, [], [], "2024-01-01".toList, 0, []⟩

/-- A catalog entry dated 2024-03-01. -/
def sessMar : SessionInfo := ⟨"s3".toList, [], [], "2024-03-01".toList, 0, []⟩

/-- A user record with uuid u1. -/
def msgDupA : SessionMessage := ⟨"user".toList, Sum.inl ("first".toList), some ("u1".toList), [], false⟩

/-- A second, distinct user record carrying the same uuid u1. -/
def msgDupB : SessionMessage := ⟨"user".toList, Sum.inl ("second".toList), some ("u1".toList), [], false⟩

/-- A plain user message. -/
def msgHello : SessionMessage := ⟨"user".toList, Sum.inl ("Hello".toList), some ("u2".toList), [], false⟩

/-- A user message whose raw string content is a command-name echo
(end-to-end scenario D of the specification). -/
def msgCmdEcho : SessionMessage :=
  ⟨"user".toList, Sum.inl ("<command-name>foo</command-name>".toList), some ("u3".toList), [], false⟩

/-- Position of the first occurrence of a string in a list of strings
(used to state first-appearance order of de-duplicated labels). -/
def firstIdx (x : Str) : List Str → Nat
  | [] => 0
  | y :: ys => if y = x then 0 else firstIdx x ys + 1

/-! # Theorems -/

/-! ## Path codec (claim C1) -/

/-- Naively decoding the encoding of a marker-free path gives the path
back: each slash round-trips through the marker, all other characters are
untouched. -/
lemma naive_decode_encode (p : Str) (hm : '-' ∉ p) :
    (encodeProjectPath p).map (fun c => if c = '-' then '/' else c) = p := by
  induction p with
  | nil => rfl
  | cons c cs ih =>
    have hc : c ≠ '-' := fun h => hm (h ▸ List.mem_cons_self c cs)
    have hcs : '-' ∉ cs := fun h => hm (List.mem_cons_of_mem c h)
    have htail := ih hcs
    simp only [encodeProjectPath, List.map_cons] at htail ⊢
    by_cases h : c = '/'
    · subst h
      simp only [if_pos rfl, htail]
      simp
    · simp only [if_neg h, if_neg hc, htail]

/-- C1 (amended): for a project path containing no marker character,
decoding its encoding returns the path whenever the existence-check
collaborator reports the path itself as existing (the naive decode is then
accepted).  For an arbitrary collaborator this can fail — see the
counterexample. -/
theorem decode_encode_marker_free (p : Str) (ex : Str → Bool)
    (hm : '-' ∉ p) (hex : ex p = true) :
    decodeProjectPath ex (encodeProjectPath p) = p := by
  unfold decodeProjectPath
  rw [naive_decode_encode p hm]
  simp [hex]

/-- Concrete instance of C1's amended statement. -/
theorem decode_encode_marker_free_witness :
    decodeProjectPath (fun s => s == "/a/b".toList) (encodeProjectPath ("/a/b".toList))
      = "/a/b".toList :=
  decode_encode_marker_free _ _ (by decide) (by decide)

/-- Counterexample to C1 as stated: `/a/b` contains no marker, yet with an
existence check that reports only `/a-b` as existing, decoding the
encoding of `/a/b` yields `/a-b`, not `/a/b` — the incremental
reconstruction prefers the existing marker-concatenation. -/
theorem decode_encode_marker_free_cx :
    ('-' ∉ "/a/b".toList)
    ∧ decodeProjectPath (fun s => s == "/a-b".toList) (encodeProjectPath ("/a/b".toList))
        ≠ "/a/b".toList := by
  decide

/-! ## Transcript reader (claims C2, C9) -/

/-- The filtered stream steps through a cons by one filter test. -/
lemma keptRecords_cons (r : SessionMessage) (rest : List (Option SessionMessage)) :
    keptRecords (some r :: rest)
      = if keptRecord r = true then r :: keptRecords rest else keptRecords rest := by
  simp only [keptRecords, List.filterMap_cons, id_eq, List.filter_cons]

/-- The reader's line loop is the uuid-keyed duplicate suppression applied
to the stream of records surviving the type/meta filters. -/
lemma parseLoop_eq_dedupKeyed (lines : List (Option SessionMessage)) :
    ∀ seen, parseLoop seen lines = dedupKeyed seen (keptRecords lines) := by
  induction lines with
  | nil => intro seen; rfl
  | cons ln rest ih =>
    intro seen
    cases ln with
    | none =>
      rw [show parseLoop seen (none :: rest) = parseLoop seen rest from rfl,
        show keptRecords (none :: rest) = keptRecords rest from rfl]
      exact ih seen
    | some r =>
      simp only [parseLoop, keptRecords_cons r rest]
      by_cases h1 : r.type = "file-history-snapshot".toList
      · have hk : keptRecord r = false := by rw [keptRecord, if_pos h1]
        rw [if_pos h1, hk, if_neg Bool.false_ne_true]
        exact ih seen
      · by_cases h2 : r.isMeta = true
        · have hk : keptRecord r = false := by rw [keptRecord, if_neg h1, if_pos h2]
          rw [if_neg h1, if_pos h2, hk, if_neg Bool.false_ne_true]
          exact ih seen
        · by_cases h3 : r.type ≠ "user".toList ∧ r.type ≠ "assistant".toList
          · have hk : keptRecord r = false := by
              rw [keptRecord, if_neg h1, if_neg h2, if_pos h3]
            rw [if_neg h1, if_neg h2, if_pos h3, hk, if_neg Bool.false_ne_true]
            exact ih seen
          · have hk : keptRecord r = true := by
              rw [keptRecord, if_neg h1, if_neg h2, if_neg h3]
            rw [if_neg h1, if_neg h2, if_neg h3, hk, if_pos rfl, dedupKeyed]
            by_cases h4 : r.uuid ∈ seen
            · rw [if_pos h4, if_pos h4]
              exact ih seen
            · rw [if_neg h4, if_neg h4]
              exact congrArg (r :: ·) (ih (r.uuid :: seen))

/-- Duplicate suppression yields a subsequence of its input. -/
lemma dedupKeyed_sublist : ∀ (l : List SessionMessage) (seen : List (Option Str)),
    List.Sublist (dedupKeyed seen l) l := by
  intro l
  induction l with
  | nil => intro seen; exact List.Sublist.refl _
  | cons r rs ih =>
    intro seen
    by_cases h : r.uuid ∈ seen
    · rw [dedupKeyed, if_pos h]
      exact (ih seen).trans (List.sublist_cons_self r rs)
    · rw [dedupKeyed, if_neg h]
      exact (ih (r.uuid :: seen)).cons₂ r

/-- Records surviving duplicate suppression come from the input and carry
an identifier outside the seen set. -/
lemma mem_dedupKeyed : ∀ (l : List SessionMessage) (seen : List (Option Str))
    (r : SessionMessage), r ∈ dedupKeyed seen l → r ∈ l ∧ r.uuid ∉ seen := by
  intro l
  induction l with
  | nil => intro seen r hr; simp [dedupKeyed] at hr
  | cons x xs ih =>
    intro seen r hr
    by_cases h : x.uuid ∈ seen
    · rw [dedupKeyed, if_pos h] at hr
      obtain ⟨hmem, hseen⟩ := ih seen r hr
      exact ⟨List.mem_cons_of_mem x hmem, hseen⟩
    · rw [dedupKeyed, if_neg h] at hr
      rcases List.mem_cons.mp hr with rfl | hr2
      · exact ⟨List.mem_cons_self _ _, h⟩
      · obtain ⟨hmem, hseen⟩ := ih (x.uuid :: seen) r hr2
        exact ⟨List.mem_cons_of_mem x hmem,
          fun hc => hseen (List.mem_cons_of_mem _ hc)⟩

/-- After duplicate suppression the identifiers are pairwise distinct. -/
lemma dedupKeyed_uuid_nodup : ∀ (l : List SessionMessage) (seen : List (Option Str)),
    ((dedupKeyed seen l).map SessionMessage.uuid).Nodup := by
  intro l
  induction l with
  | nil => intro seen; simp [dedupKeyed]
  | cons x xs ih =>
    intro seen
    by_cases h : x.uuid ∈ seen
    · simpa [dedupKeyed, h] using ih seen
    · rw [dedupKeyed, if_neg h]
      refine List.nodup_cons.mpr ⟨?_, ih (x.uuid :: seen)⟩
      intro hc
      rcases List.mem_map.mp hc with ⟨r, hr, hu⟩
      have := (mem_dedupKeyed xs (x.uuid :: seen) r hr).2
      exact this (hu ▸ List.mem_cons_self _ _)

/-- A record surviving duplicate suppression is the first record of the
input stream carrying its identifier. -/
lemma dedupKeyed_find : ∀ (l : List SessionMessage) (seen : List (Option Str))
    (r : SessionMessage), r ∈ dedupKeyed seen l →
    r.uuid ∉ seen ∧ l.find? (fun s => decide (s.uuid = r.uuid)) = some r := by
  intro l
  induction l with
  | nil => intro seen r hr; simp [dedupKeyed] at hr
  | cons x xs ih =>
    intro seen r hr
    by_cases h : x.uuid ∈ seen
    · rw [dedupKeyed, if_pos h] at hr
      obtain ⟨hseen, hfind⟩ := ih seen r hr
      have hne : ¬ x.uuid = r.uuid := fun hc => hseen (hc ▸ h)
      refine ⟨hseen, ?_⟩
      rw [List.find?_cons_of_neg, hfind]
      simpa using hne
    · rw [dedupKeyed, if_neg h] at hr
      rcases List.mem_cons.mp hr with rfl | hr2
      · exact ⟨h, by rw [List.find?_cons_of_pos] <;> simp⟩
      · obtain ⟨hseen, hfind⟩ := ih (x.uuid :: seen) r hr2
        have hne : ¬ x.uuid = r.uuid :=
          fun hc => hseen (hc ▸ List.mem_cons_self _ _)
        refine ⟨fun hc => hseen (List.mem_cons_of_mem _ hc), ?_⟩
        rw [List.find?_cons_of_neg, hfind]
        simpa using hne

/-- C2: in the reader's output, identifiers are pairwise distinct, the
output is a subsequence of the filtered record stream, and every returned
record is the first record (in file order) of that stream carrying its
identifier — so of two records with the same uuid, only the first
eligible one appears. -/
theorem parse_session_first_occurrence_wins (lines : List (Option SessionMessage)) :
    ((parseSession lines).map SessionMessage.uuid).Nodup
    ∧ List.Sublist (parseSession lines) (keptRecords lines)
    ∧ ∀ r ∈ parseSession lines,
        (keptRecords lines).find? (fun s => decide (s.uuid = r.uuid)) = some r := by
  rw [parseSession, parseLoop_eq_dedupKeyed]
  exact ⟨dedupKeyed_uuid_nodup _ _, dedupKeyed_sublist _ _,
    fun r hr => (dedupKeyed_find _ _ r hr).2⟩

/-- Concrete instance of C2: of two distinct records sharing uuid u1, the
reader keeps the first. -/
theorem parse_session_first_occurrence_wins_witness :
    (keptRecords [some msgDupA, some msgDupB]).find?
        (fun s => decide (s.uuid = msgDupA.uuid)) = some msgDupA :=
  (parse_session_first_occurrence_wins [some msgDupA, some msgDupB]).2.2 msgDupA
    (List.mem_cons_self _ _)

/-- C9: among eligible records lacking an identifier entirely, only the
first survives — the reader's output restricted to uuid-less records is
the first uuid-less record of the filtered stream (the missing identifier
is recorded in the seen set as the single value `undefined`, so every
later uuid-less record is discarded as a duplicate). -/
theorem parse_session_missing_uuid_collapse (lines : List (Option SessionMessage)) :
    (parseSession lines).filter (fun r => r.uuid.isNone)
      = ((keptRecords lines).filter (fun r => r.uuid.isNone)).take 1 := by
  rw [parseSession, parseLoop_eq_dedupKeyed]
  have key : ∀ (l : List SessionMessage) (seen : List (Option Str)),
      (dedupKeyed seen l).filter (fun r => r.uuid.isNone)
        = if none ∈ seen then [] else (l.filter (fun r => r.uuid.isNone)).take 1 := by
    intro l
    induction l with
    | nil => intro seen; simp [dedupKeyed]
    | cons x xs ih =>
      intro seen
      rcases hx : x.uuid with _ | u
      · have hpx : x.uuid.isNone = true := by simp [hx]
        by_cases h : x.uuid ∈ seen
        · have hn : none ∈ seen := hx ▸ h
          rw [dedupKeyed, if_pos h, ih seen, if_pos hn, if_pos hn]
        · have hn : (none : Option Str) ∉ seen := hx ▸ h
          rw [dedupKeyed, if_neg h, List.filter_cons, hpx, if_pos rfl, hx,
            ih ((none : Option Str) :: seen), if_pos (List.mem_cons_self _ _),
            if_neg hn, List.filter_cons, hpx, if_pos rfl, List.take_succ_cons,
            List.take_zero]
      · have hpx : x.uuid.isNone = false := by simp [hx]
        by_cases h : x.uuid ∈ seen
        · rw [dedupKeyed, if_pos h, ih seen, List.filter_cons, hpx,
            if_neg Bool.false_ne_true]
        · rw [dedupKeyed, if_neg h, List.filter_cons, hpx, if_neg Bool.false_ne_true,
            ih (x.uuid :: seen), List.filter_cons, hpx, if_neg Bool.false_ne_true]
          by_cases hn : (none : Option Str) ∈ seen
          · rw [if_pos hn, if_pos (List.mem_cons_of_mem _ hn)]
          · have hnc : (none : Option Str) ∉ x.uuid :: seen := by
              intro hc
              rcases List.mem_cons.mp hc with h9 | h9
              · rw [hx] at h9; exact Option.noConfusion h9
              · exact hn h9
            rw [if_neg hn, if_neg hnc]
  simpa using key (keptRecords lines) []

/-! ## Triple-backtick escaping and tool-result truncation (claim C6) -/

/-- A string without backticks is untouched by the escaper. -/
lemma esc3_clean (n : Str) : btk ∉ n → esc3 n = n := by
  induction n using esc3.induct with
  | case1 => intro h9; rfl
  | case2 c => intro h9; rfl
  | case3 c1 c2 => intro h9; rfl
  | case4 c1 c2 c3 rest hcond ih =>
    intro h
    obtain ⟨e1, e2, e3⟩ := hcond
    subst e1
    exact absurd (List.mem_cons_self _ _) h
  | case5 c1 c2 c3 rest hcond ih =>
    intro h
    have h2 : btk ∉ c2 :: c3 :: rest := fun hc => h (List.mem_cons_of_mem _ hc)
    simp only [esc3]
    rw [if_neg hcond, ih h2]

/-- Prepending one character to a backtick-free string is untouched by the
escaper. -/
lemma esc3_one_cons (c : Char) (n : Str) (h : btk ∉ n) : esc3 (c :: n) = c :: n := by
  cases n with
  | nil => rfl
  | cons a t =>
    cases t with
    | nil => rfl
    | cons b t2 =>
      have ha : a ≠ btk := fun hc => h (List.mem_cons.mpr (Or.inl hc.symm))
      have hcond : ¬(c = btk ∧ a = btk ∧ b = btk) := fun hc => ha hc.2.1
      simp only [esc3]
      rw [if_neg hcond, esc3_clean _ h]

/-- The escaper distributes over appending a backtick-free suffix: no
triple-backtick match can straddle the boundary. -/
lemma esc3_append_clean (x n : Str) (h : btk ∉ n) :
    esc3 (x ++ n) = esc3 x ++ n := by
  induction x using esc3.induct with
  | case1 => simpa using esc3_clean n h
  | case2 c => simpa using esc3_one_cons c n h
  | case3 c1 c2 =>
    cases n with
    | nil => simp
    | cons a t =>
      have ha : a ≠ btk := fun hc => h (List.mem_cons.mpr (Or.inl hc.symm))
      have hcond : ¬(c1 = btk ∧ c2 = btk ∧ a = btk) := fun hc => ha hc.2.2
      show esc3 (c1 :: c2 :: a :: t) = c1 :: c2 :: a :: t
      simp only [esc3]
      rw [if_neg hcond, esc3_one_cons c2 (a :: t) h]
  | case4 c1 c2 c3 rest hcond ih =>
    simp only [List.cons_append] at ih ⊢
    simp only [esc3]
    rw [if_pos hcond, if_pos hcond, ih]
    simp
  | case5 c1 c2 c3 rest hcond ih =>
    simp only [List.cons_append] at ih ⊢
    simp only [esc3]
    rw [if_neg hcond, if_neg hcond, ih]
    simp

/-- A string with no triple-backtick run is reproduced verbatim by the
escaper. -/
lemma esc3_no_ticks (s : Str) : ¬ List.IsInfix ticks3 s → esc3 s = s := by
  induction s using esc3.induct with
  | case1 => intro h9; rfl
  | case2 c => intro h9; rfl
  | case3 c1 c2 => intro h9; rfl
  | case4 c1 c2 c3 rest hcond ih =>
    intro h
    exfalso
    obtain ⟨e1, e2, e3⟩ := hcond
    subst e1; subst e2; subst e3
    exact h ⟨[], rest, rfl⟩
  | case5 c1 c2 c3 rest hcond ih =>
    intro h
    have h2 : ¬ List.IsInfix ticks3 (c2 :: c3 :: rest) := by
      intro hc
      obtain ⟨u, v, huv⟩ := hc
      refine h ⟨c1 :: u, v, ?_⟩
      simp only [List.cons_append, List.append_assoc] at huv ⊢
      rw [huv]
    simp only [esc3]
    rw [if_neg hcond, ih h2]

/-- Rendering a string-payload tool result, written out: the payload is
truncated at 1000 characters (with notice), and if non-empty, escaped and
wrapped in a code fence. -/
lemma formatContentBlock_tool_result_str (s : Str) :
    formatContentBlock (ContentBlock.mk .tool_result none none none [] (some (Sum.inl s)))
      = (if (if s.length > 1000 then s.take 1000 ++ truncNotice else s) = []
         then ⟨[], true, some ("Result".toList)⟩
         else ⟨"**Result:**\n```\n".toList
             ++ esc3 (if s.length > 1000 then s.take 1000 ++ truncNotice else s)
             ++ "\n```".toList, true, some ("Result".toList)⟩) := rfl

/-- C6 (amended): a tool-result text longer than the threshold (1000) is
rendered as its escaped 1000-character truncation followed by the
truncation notice, so the notice always appears in the output; text at or
below the threshold that contains no triple-backtick sequence appears in
the output verbatim; text at or below the threshold in general appears
escaped (each triple backtick spaced out), inside the code fence. -/
theorem tool_result_truncation_escape (s : Str) :
    (s.length > 1000 →
      (formatContentBlock (ContentBlock.mk .tool_result none none none []
          (some (Sum.inl s)))).text
        = "**Result:**\n```\n".toList ++ esc3 (s.take 1000) ++ truncNotice ++ "\n```".toList
      ∧ List.IsInfix truncNotice
          (formatContentBlock (ContentBlock.mk .tool_result none none none []
            (some (Sum.inl s)))).text)
    ∧ (s.length ≤ 1000 → ¬ List.IsInfix ticks3 s →
        List.IsInfix s (formatContentBlock (ContentBlock.mk .tool_result none none none []
          (some (Sum.inl s)))).text)
    ∧ (s.length ≤ 1000 → s ≠ [] →
        (formatContentBlock (ContentBlock.mk .tool_result none none none []
          (some (Sum.inl s)))).text
          = "**Result:**\n```\n".toList ++ esc3 s ++ "\n```".toList) := by
  have hbn : btk ∉ truncNotice := by decide
  refine ⟨?_, ?_, ?_⟩
  · intro hlen
    have hne : ¬ (s.take 1000 ++ truncNotice) = [] := by
      simp [truncNotice]
    have htext : (formatContentBlock (ContentBlock.mk .tool_result none none none []
        (some (Sum.inl s)))).text
        = "**Result:**\n```\n".toList ++ (esc3 (s.take 1000) ++ truncNotice)
            ++ "\n```".toList := by
      rw [formatContentBlock_tool_result_str, if_pos hlen, if_neg hne]
      rw [esc3_append_clean _ _ hbn]
    refine ⟨by rw [htext]; simp [List.append_assoc], ?_⟩
    rw [htext]
    exact ⟨"**Result:**\n```\n".toList ++ esc3 (s.take 1000), "\n```".toList,
      by simp [List.append_assoc]⟩
  · intro hlen hticks
    have hnlen : ¬ s.length > 1000 := Nat.not_lt.mpr hlen
    by_cases hs : s = []
    · subst hs
      exact List.nil_infix
    · have htext : (formatContentBlock (ContentBlock.mk .tool_result none none none []
          (some (Sum.inl s)))).text
          = "**Result:**\n```\n".toList ++ s ++ "\n```".toList := by
        rw [formatContentBlock_tool_result_str, if_neg hnlen, if_neg hs,
          esc3_no_ticks s hticks]
      rw [htext]
      exact ⟨"**Result:**\n```\n".toList, "\n```".toList, rfl⟩
  · intro hlen hs
    have hnlen : ¬ s.length > 1000 := Nat.not_lt.mpr hlen
    rw [formatContentBlock_tool_result_str, if_neg hnlen, if_neg hs]

/-- Concrete instances of C6's amended statement: a 1001-character result
is rendered with the truncation notice; the short backtick-free result
"ok" appears verbatim. -/
theorem tool_result_truncation_escape_witness :
    List.IsInfix truncNotice
      (formatContentBlock (ContentBlock.mk .tool_result none none none []
        (some (Sum.inl (List.replicate 1001 'a'))))).text
    ∧ List.IsInfix ("ok".toList)
        (formatContentBlock (ContentBlock.mk .tool_result none none none []
          (some (Sum.inl ("ok".toList))))).text :=
  ⟨((tool_result_truncation_escape (List.replicate 1001 'a')).1
      (by rw [List.length_replicate]; decide)).2,
   (tool_result_truncation_escape ("ok".toList)).2.1 (by decide) (by decide)⟩

set_option maxRecDepth 8000 in
/-- Counterexample to C6 as stated: the result text "a```b" is at most
1000 characters long, yet it does not appear verbatim (as a contiguous
substring) in the rendered output — its triple backtick is escaped to
a spaced-out form. -/
theorem tool_result_truncation_escape_cx :
    ("a```b".toList).length ≤ 1000
    ∧ ¬ List.IsInfix ("a```b".toList)
        (formatContentBlock (ContentBlock.mk .tool_result none none none []
          (some (Sum.inl ("a```b".toList))))).text := by
  decide

/-! ## Collapsible-section escaping and label de-duplication (claim C8) -/

/-- A character of the output of a single-character replacement comes from
the replacement string or is a surviving (non-pattern) input character. -/
lemma mem_replaceAllChar (c : Char) (r s : Str) (a : Char) :
    a ∈ replaceAllChar c r s → a ∈ r ∨ (a ∈ s ∧ a ≠ c) := by
  intro h
  rw [replaceAllChar] at h
  rcases List.mem_flatten.mp h with ⟨l, hl, hal⟩
  rcases List.mem_map.mp hl with ⟨x, hx, hfx⟩
  by_cases hxc : x = c
  · left
    rw [← hfx, if_pos hxc] at hal
    exact hal
  · right
    rw [← hfx, if_neg hxc] at hal
    rcases List.mem_singleton.mp hal with rfl
    exact ⟨hx, hxc⟩

/-- Angle-bracket escaping leaves no literal angle bracket in its output. -/
lemma escAngle_no_angle (s : Str) : '<' ∉ escAngle s ∧ '>' ∉ escAngle s := by
  constructor
  · intro h
    rcases mem_replaceAllChar _ _ _ _ h with h1 | ⟨h2, hne⟩
    · revert h1; decide
    · rcases mem_replaceAllChar _ _ _ _ h2 with h3 | ⟨h4, hne2⟩
      · revert h3; decide
      · exact hne2 rfl
  · intro h
    rcases mem_replaceAllChar _ _ _ _ h with h1 | ⟨h2, hne⟩
    · revert h1; decide
    · exact hne rfl

/-- Membership in the JavaScript-`Set` de-duplication. -/
lemma mem_jsSetList : ∀ (l seen : List Str) (x : Str),
    x ∈ jsSetList seen l ↔ (x ∈ l ∧ x ∉ seen) := by
  intro l
  induction l with
  | nil => intro seen x; simp [jsSetList]
  | cons y ys ih =>
    intro seen x
    by_cases h : y ∈ seen
    · rw [jsSetList, if_pos h, ih seen x]
      constructor
      · rintro ⟨hx, hs⟩
        exact ⟨List.mem_cons_of_mem _ hx, hs⟩
      · rintro ⟨hx, hs⟩
        rcases List.mem_cons.mp hx with rfl | hx2
        · exact absurd h hs
        · exact ⟨hx2, hs⟩
    · rw [jsSetList, if_neg h]
      constructor
      · intro hx
        rcases List.mem_cons.mp hx with rfl | hx2
        · exact ⟨List.mem_cons_self _ _, h⟩
        · obtain ⟨h1, h2⟩ := (ih (y :: seen) x).mp hx2
          exact ⟨List.mem_cons_of_mem _ h1, fun hc => h2 (List.mem_cons_of_mem _ hc)⟩
      · rintro ⟨hx, hs⟩
        rcases List.mem_cons.mp hx with rfl | hx2
        · exact List.mem_cons_self _ _
        · by_cases hxy : x = y
          · subst hxy
            exact List.mem_cons_self _ _
          · refine List.mem_cons_of_mem _ ((ih (y :: seen) x).mpr ⟨hx2, ?_⟩)
            intro hc
            rcases List.mem_cons.mp hc with h9 | h9
            · exact hxy h9
            · exact hs h9

/-- The de-duplicated label list has no duplicates. -/
lemma jsSetList_nodup : ∀ (l seen : List Str), (jsSetList seen l).Nodup := by
  intro l
  induction l with
  | nil => intro seen; simp [jsSetList]
  | cons y ys ih =>
    intro seen
    by_cases h : y ∈ seen
    · rw [jsSetList, if_pos h]
      exact ih seen
    · rw [jsSetList, if_neg h]
      refine List.nodup_cons.mpr ⟨?_, ih (y :: seen)⟩
      intro hc
      exact ((mem_jsSetList ys (y :: seen) y).mp hc).2 (List.mem_cons_self _ _)

/-- The de-duplicated label list is a subsequence of the original. -/
lemma jsSetList_sublist : ∀ (l seen : List Str), List.Sublist (jsSetList seen l) l := by
  intro l
  induction l with
  | nil => intro seen; exact List.Sublist.refl _
  | cons y ys ih =>
    intro seen
    by_cases h : y ∈ seen
    · rw [jsSetList, if_pos h]
      exact (ih seen).trans (List.sublist_cons_self y ys)
    · rw [jsSetList, if_neg h]
      exact (ih (y :: seen)).cons₂ y

/-- The de-duplicated label list keeps labels in order of first appearance:
positions of first occurrences are strictly increasing along it. -/
lemma jsSetList_pairwise : ∀ (l seen : List Str),
    (jsSetList seen l).Pairwise (fun a b => firstIdx a l < firstIdx b l) := by
  intro l
  induction l with
  | nil => intro seen; simp [jsSetList]
  | cons y ys ih =>
    intro seen
    by_cases h : y ∈ seen
    · rw [jsSetList, if_pos h]
      refine (ih seen).imp_of_mem ?_
      intro a b ha hb hab
      have hay : y ≠ a := fun hc => ((mem_jsSetList ys seen a).mp ha).2 (hc ▸ h)
      have hby : y ≠ b := fun hc => ((mem_jsSetList ys seen b).mp hb).2 (hc ▸ h)
      rw [firstIdx, if_neg hay, firstIdx, if_neg hby]
      exact Nat.succ_lt_succ hab
    · rw [jsSetList, if_neg h]
      refine List.pairwise_cons.mpr ⟨?_, ?_⟩
      · intro b hb
        have hby : y ≠ b := fun hc =>
          ((mem_jsSetList ys (y :: seen) b).mp hb).2 (hc ▸ List.mem_cons_self _ _)
        rw [firstIdx, if_pos rfl, firstIdx, if_neg hby]
        exact Nat.succ_pos _
      · refine (ih (y :: seen)).imp_of_mem ?_
        intro a b ha hb hab
        have hay : y ≠ a := fun hc =>
          ((mem_jsSetList ys (y :: seen) a).mp ha).2 (hc ▸ List.mem_cons_self _ _)
        have hby : y ≠ b := fun hc =>
          ((mem_jsSetList ys (y :: seen) b).mp hb).2 (hc ▸ List.mem_cons_self _ _)
        rw [firstIdx, if_neg hay, firstIdx, if_neg hby]
        exact Nat.succ_lt_succ hab

/-- C8: the body of a collapsible section contains no literal angle
bracket coming from the buffered content (every such character is replaced
by its entity form), and the summary line is the comma-joined label list
with duplicates removed, preserving first-appearance order (no duplicates,
a subsequence of the buffered labels, containing exactly the buffered
labels, with first-occurrence positions strictly increasing). -/
theorem details_block_escaping (content labels : List Str) :
    '<' ∉ detailsBody content
    ∧ '>' ∉ detailsBody content
    ∧ formatDetailsBlock content labels
        = "<details>\n<summary><em>".toList ++ joinSep (", ".toList) (jsSetList [] labels)
          ++ "</em></summary>\n\n".toList ++ escAngle (joinSep ("\n\n".toList) content)
          ++ "\n\n</details>".toList
    ∧ (jsSetList [] labels).Nodup
    ∧ List.Sublist (jsSetList [] labels) labels
    ∧ (∀ x, x ∈ jsSetList [] labels ↔ x ∈ labels)
    ∧ (jsSetList [] labels).Pairwise (fun a b => firstIdx a labels < firstIdx b labels) :=
  ⟨(escAngle_no_angle _).1, (escAngle_no_angle _).2, rfl,
   jsSetList_nodup _ _, jsSetList_sublist _ _,
   fun x => by rw [mem_jsSetList]; simp,
   jsSetList_pairwise _ _⟩

/-- Concrete instance of C8: a body built from a raw tag has its angle
brackets escaped away, and duplicated labels collapse to one. -/
theorem details_block_escaping_witness :
    '<' ∉ detailsBody ["<b>tag</b>".toList]
    ∧ (jsSetList [] ["Bash".toList, "Bash".toList]).Nodup :=
  ⟨(details_block_escaping ["<b>tag</b>".toList] []).1,
   (details_block_escaping [] ["Bash".toList, "Bash".toList]).2.2.2.1⟩

/-! ## Document assembler (claims C3, C4, C7) -/

/-- The source loop's flush of its parallel pending/label lists coincides
with the specification-side flush of the paired buffer. -/
lemma flush_parallel_eq_spec (q : List (Str × List Str)) :
    (if q.map Prod.fst ≠ [] then
      [formatDetailsBlock (q.map Prod.fst) ((q.map Prod.snd).flatten), []] else [])
      = flushSpec q := by
  by_cases hq : q = []
  · subst hq
    simp [flushSpec]
  · have hp : q.map Prod.fst ≠ [] := by simpa [List.map_eq_nil_iff] using hq
    rw [flushSpec, if_pos hp, if_neg hq]

/-- The source's assembler walk, started from a state presented as the
parallel projections of a paired pending buffer, computes exactly the
specification-side walk. -/
lemma assembleGo_eq_spec : ∀ (fmsgs : List FormattedMessage)
    (q : List (Str × List Str)) (firstUser : Bool),
    assembleGo (q.map Prod.fst) ((q.map Prod.snd).flatten) firstUser fmsgs
      = assembleSpec q firstUser fmsgs := by
  intro fmsgs
  induction fmsgs with
  | nil =>
    intro q firstUser
    simp only [assembleGo, assembleSpec]
    exact flush_parallel_eq_spec q
  | cons m rest ih =>
    intro q firstUser
    simp only [assembleGo, assembleSpec]
    by_cases hv : m.visible ≠ []
    · rw [if_pos hv, if_pos hv]
      have hla : (if q.map Prod.fst ≠ [] then ([] : List Str)
          else (q.map Prod.snd).flatten) = [] := by
        by_cases hq : q = []
        · subst hq; simp
        · rw [if_pos (by simpa [List.map_eq_nil_iff] using hq)]
      rw [hla, flush_parallel_eq_spec q]
      by_cases hh : m.hidden ≠ []
      · rw [if_pos hh, if_pos hh]
        have := ih [(m.hidden, m.hiddenLabels)] (if m.isUser then false else firstUser)
        simp only [List.map_cons, List.map_nil, List.flatten_cons, List.flatten_nil,
          List.append_nil, List.nil_append] at this
        rw [queueOf, if_pos hh, List.nil_append]
        rw [this]
      · rw [if_neg hh, if_neg hh]
        have := ih [] (if m.isUser then false else firstUser)
        simp only [List.map_nil, List.flatten_nil] at this
        rw [queueOf, if_neg hh]
        rw [this]
    · rw [if_neg hv, if_neg hv]
      by_cases hh : m.hidden ≠ []
      · rw [if_pos hh, queueOf, if_pos hh]
        have := ih (q ++ [(m.hidden, m.hiddenLabels)]) firstUser
        simp only [List.map_append, List.map_cons, List.map_nil, List.flatten_append,
          List.flatten_cons, List.flatten_nil, List.append_nil] at this
        exact this
      · rw [if_neg hh, queueOf, if_neg hh, List.append_nil]
        exact ih q firstUser

/-- C3: the assembler walk obeys the pending-buffer discipline described
by the specification — on a visible message the pending buffer is first
flushed as one collapsible section, then the visible text is emitted, and
the message's own hidden content is queued for the next flush rather than
emitted immediately; a trailing flush runs after the last message.  The
source loop equals the specification-side walk, and the whole document is
the title line followed by that walk. -/
theorem assembler_pending_flush :
    (∀ fmsgs : List FormattedMessage,
      assembleGo [] [] true fmsgs = assembleSpec [] true fmsgs)
    ∧ ∀ (sid pp : Str) (msgs : List SessionMessage) (summ : Option Str),
        msgs ≠ [] →
        formatSessionToMarkdown sid pp msgs summ
          = joinSep ['\n'] (("# ".toList ++ titleOf sid summ ++ ['\n'])
              :: assembleSpec [] true (msgs.map formatMessage)) := by
  have hgo : ∀ fmsgs : List FormattedMessage,
      assembleGo [] [] true fmsgs = assembleSpec [] true fmsgs := by
    intro fmsgs
    simpa using assembleGo_eq_spec fmsgs [] true
  refine ⟨hgo, ?_⟩
  intro sid pp msgs summ hne
  have hie : msgs.isEmpty = false := by
    cases msgs with
    | nil => exact absurd rfl hne
    | cons a l => rfl
  rw [formatSessionToMarkdown, hie, if_neg Bool.false_ne_true, hgo]

/-- Concrete instance of C3's document equation. -/
theorem assembler_pending_flush_witness :
    formatSessionToMarkdown ("sid".toList) [] [msgHello] none
      = joinSep ['\n'] (("# ".toList ++ titleOf ("sid".toList) none ++ ['\n'])
          :: assembleSpec [] true ([msgHello].map formatMessage)) :=
  assembler_pending_flush.2 _ _ _ _ (List.cons_ne_nil _ _)

/-- Any join headed by a line extends that line. -/
lemma joinSep_cons_head (sep a : Str) (l : List Str) :
    ∃ t, joinSep sep (a :: l) = a ++ t := by
  cases l with
  | nil => exact ⟨[], by simp [joinSep]⟩
  | cons b bt => exact ⟨sep ++ joinSep sep (b :: bt), by simp [joinSep, List.append_assoc]⟩

/-- C4: the assembler returns the empty document exactly for an empty
message list — a session with at least one message always renders a
document beginning with the title heading, so the empty output cannot be
mistaken for a successful non-empty render. -/
theorem empty_session_distinct_empty (sid pp : Str) (msgs : List SessionMessage)
    (summ : Option Str) :
    formatSessionToMarkdown sid pp msgs summ = [] ↔ msgs = [] := by
  constructor
  · intro h
    by_contra hne
    have hie : msgs.isEmpty = false := by
      cases msgs with
      | nil => exact absurd rfl hne
      | cons a l => rfl
    rw [formatSessionToMarkdown, hie, if_neg Bool.false_ne_true] at h
    obtain ⟨t, ht⟩ := joinSep_cons_head ['\n']
      ("# ".toList ++ titleOf sid summ ++ ['\n'])
      (assembleGo [] [] true (msgs.map formatMessage))
    rw [ht] at h
    simp at h
  · intro h
    subst h
    rfl

/-- Concrete instance of C4: the empty session renders to the empty
document. -/
theorem empty_session_distinct_empty_witness :
    formatSessionToMarkdown ("sid".toList) [] [] none = [] :=
  (empty_session_distinct_empty ("sid".toList) [] [] none).mpr rfl

/-- A message that rendered to nothing (no visible and no hidden text) is
skipped by the assembler walk wherever it occurs. -/
lemma assembleGo_skip_empty (fm : FormattedMessage)
    (hv : fm.visible = []) (hh : fm.hidden = []) :
    ∀ (fms1 : List FormattedMessage) (p l : List Str) (f : Bool)
      (fms2 : List FormattedMessage),
      assembleGo p l f (fms1 ++ fm :: fms2) = assembleGo p l f (fms1 ++ fms2) := by
  intro fms1
  induction fms1 with
  | nil =>
    intro p l f fms2
    simp only [List.nil_append, assembleGo]
    rw [if_neg (by simp [hv]), if_neg (by simp [hh])]
  | cons m fms1 ih =>
    intro p l f fms2
    simp only [List.cons_append, assembleGo, List.append_eq]
    by_cases hmv : m.visible ≠ []
    · rw [if_pos hmv, if_pos hmv, ih]
    · rw [if_neg hmv, if_neg hmv]
      by_cases hmh : m.hidden ≠ []
      · rw [if_pos hmh, if_pos hmh, ih]
      · rw [if_neg hmh, if_neg hmh, ih]

/-- C7: a message whose raw string content begins with a recognised
command-echo marker renders to an entirely empty result — no visible text,
no hidden text, no labels — and therefore contributes nothing to the
assembler walk; inserting such a message anywhere in a non-empty session
leaves the assembled document unchanged. -/
theorem command_echo_suppressed (ty s : Str) (u : Option Str) (ts : Str)
    (meta : Bool) (sid pp : Str) (summ : Option Str)
    (ms1 ms2 : List SessionMessage)
    (h : (("<command-name>".toList).isPrefixOf s
          || ("<local-command-stdout>".toList).isPrefixOf s) = true) :
    formatMessage ⟨ty, Sum.inl s, u, ts, meta⟩
      = ⟨[], [], [], decide (ty = "user".toList)⟩
    ∧ (∀ (p l : List Str) (f : Bool) (fms1 fms2 : List FormattedMessage),
        assembleGo p l f
            (fms1 ++ formatMessage ⟨ty, Sum.inl s, u, ts, meta⟩ :: fms2)
          = assembleGo p l f (fms1 ++ fms2))
    ∧ (ms1 ++ ms2 ≠ [] →
        formatSessionToMarkdown sid pp (ms1 ++ ⟨ty, Sum.inl s, u, ts, meta⟩ :: ms2) summ
          = formatSessionToMarkdown sid pp (ms1 ++ ms2) summ) := by
  have hfm : formatMessage ⟨ty, Sum.inl s, u, ts, meta⟩
      = ⟨[], [], [], decide (ty = "user".toList)⟩ := by
    rw [formatMessage]
    simp only [h, if_true]
  refine ⟨hfm, ?_, ?_⟩
  · intro p l f fms1 fms2
    rw [hfm]
    exact assembleGo_skip_empty _ rfl rfl fms1 p l f fms2
  · intro hne
    have hie1 : (ms1 ++ ⟨ty, Sum.inl s, u, ts, meta⟩ :: ms2).isEmpty = false := by
      cases ms1 with
      | nil => rfl
      | cons a l => rfl
    have hie2 : (ms1 ++ ms2).isEmpty = false := by
      cases hx : ms1 ++ ms2 with
      | nil => exact absurd hx hne
      | cons a l => rfl
    rw [formatSessionToMarkdown, formatSessionToMarkdown, hie1, hie2,
      if_neg Bool.false_ne_true, if_neg Bool.false_ne_true]
    have hmap : (ms1 ++ ⟨ty, Sum.inl s, u, ts, meta⟩ :: ms2).map formatMessage
        = ms1.map formatMessage
          ++ formatMessage ⟨ty, Sum.inl s, u, ts, meta⟩ :: ms2.map formatMessage := by
      simp
    rw [hmap, hfm, assembleGo_skip_empty _ rfl rfl, List.map_append]

/-- Concrete instance of C7 (end-to-end scenario D): appending a
command-name echo message to a session leaves the rendered document
unchanged. -/
theorem command_echo_suppressed_witness :
    formatSessionToMarkdown ("sid".toList) [] [msgHello, msgCmdEcho] none
      = formatSessionToMarkdown ("sid".toList) [] [msgHello] none :=
  (command_echo_suppressed ("user".toList)
      "<command-name>foo</command-name>".toList (some ("u3".toList)) [] false
      "sid".toList [] none [msgHello] [] (by decide)).2.2
    (List.cons_ne_nil _ _)

/-! ## Empty content blocks (claim C10) -/

/-- A block whose rendered text is empty is skipped by the block walk
wherever it occurs. -/
lemma collectParts_skip (b : ContentBlock) (h : (formatContentBlock b).text = []) :
    ∀ (bs1 bs2 : List ContentBlock),
      collectParts (bs1 ++ b :: bs2) = collectParts (bs1 ++ bs2) := by
  intro bs1
  induction bs1 with
  | nil =>
    intro bs2
    simp only [List.nil_append, collectParts]
    rw [if_pos h]
  | cons x bs1 ih =>
    intro bs2
    simp only [List.cons_append, collectParts, List.append_eq]
    rw [ih]

/-- C10: a content block whose rendered display text is empty contributes
neither text nor a label to its message — inserting it anywhere in the
block list leaves the rendered message unchanged.  An empty text block, a
tool result with absent, empty-string or empty-array payload, and an
unrecognised block kind all render to empty text (the empty tool result
carrying its unused "Result" label), whereas a thinking block with an
empty trace renders non-empty hidden text labelled "Thinking", which a
message does keep. -/
theorem empty_block_contributes_nothing :
    (∀ (b : ContentBlock) (ty : Str) (u : Option Str) (ts : Str) (meta : Bool)
        (bs1 bs2 : List ContentBlock),
      (formatContentBlock b).text = [] →
      formatMessage ⟨ty, Sum.inr (bs1 ++ b :: bs2), u, ts, meta⟩
        = formatMessage ⟨ty, Sum.inr (bs1 ++ bs2), u, ts, meta⟩)
    ∧ (formatContentBlock (ContentBlock.mk .text none none none [] none)).text = []
    ∧ (formatContentBlock (ContentBlock.mk .text (some []) none none [] none)).text = []
    ∧ (formatContentBlock (ContentBlock.mk .tool_result none none none [] none)).text = []
    ∧ (formatContentBlock (ContentBlock.mk .tool_result none none none []
        (some (Sum.inl [])))).text = []
    ∧ (formatContentBlock (ContentBlock.mk .tool_result none none none []
        (some (Sum.inr [])))).text = []
    ∧ (formatContentBlock (ContentBlock.mk .tool_result none none none []
        (some (Sum.inl [])))).label = some ("Result".toList)
    ∧ formatContentBlock (ContentBlock.mk .other none none none [] none)
        = ⟨[], false, none⟩
    ∧ formatContentBlock (ContentBlock.mk .thinking none none none [] none)
        = ⟨"**Thinking:** ".toList, true, some ("Thinking".toList)⟩
    ∧ (∀ (ty : Str) (u : Option Str) (ts : Str) (meta : Bool),
        formatMessage ⟨ty, Sum.inr [ContentBlock.mk .thinking none none none [] none],
            u, ts, meta⟩
          = ⟨[], "**Thinking:** ".toList, ["Thinking".toList],
             decide (ty = "user".toList)⟩) := by
  refine ⟨?_, rfl, rfl, rfl, rfl, rfl, rfl, rfl, rfl, fun ty u ts meta => rfl⟩
  intro b ty u ts meta bs1 bs2 h
  rw [formatMessage, formatMessage]
  simp only
  rw [collectParts_skip b h bs1 bs2]

/-- Concrete instance of C10: an empty text block adds nothing to a
message. -/
theorem empty_block_contributes_nothing_witness :
    formatMessage ⟨"assistant".toList,
        Sum.inr [ContentBlock.mk .text none none none [] none], none, [], false⟩
      = formatMessage ⟨"assistant".toList, Sum.inr [], none, [], false⟩ :=
  empty_block_contributes_nothing.1 _ _ _ _ _ [] [] rfl

/-! ## Catalog sort order (claim C5) -/

/-- The comparator evaluated at two entries with valid timestamps. -/
lemma cmpSess_eq (a b : SessionInfo) (ta tb : Int)
    (ha : jsTime a.date = some ta) (hb : jsTime b.date = some tb) :
    cmpSess a b = tb - ta := by
  unfold cmpSess
  rw [ha, hb]

/-- Membership after a stable insertion. -/
lemma mem_jsInsert (x : SessionInfo) : ∀ (l : List SessionInfo) (y : SessionInfo),
    y ∈ jsInsert x l → y = x ∨ y ∈ l := by
  intro l
  induction l with
  | nil =>
    intro y hy
    simpa [jsInsert] using hy
  | cons z zs ih =>
    intro y hy
    rw [jsInsert] at hy
    by_cases h : cmpSess z x < 0
    · rw [if_pos h] at hy
      rcases List.mem_cons.mp hy with rfl | hy2
      · exact Or.inr (List.mem_cons_self _ _)
      · rcases ih y hy2 with h9 | h9
        · exact Or.inl h9
        · exact Or.inr (List.mem_cons_of_mem _ h9)
    · rw [if_neg h] at hy
      rcases List.mem_cons.mp hy with rfl | hy2
      · exact Or.inl rfl
      · exact Or.inr hy2

/-- Stable insertion preserves descending comparator order when every
involved entry has a valid timestamp. -/
lemma jsInsert_pairwise (x : SessionInfo) :
    ∀ l : List SessionInfo,
    (jsTime x.date).isSome = true →
    (∀ z ∈ l, (jsTime z.date).isSome = true) →
    l.Pairwise (fun a b => cmpSess a b ≤ 0) →
    (jsInsert x l).Pairwise (fun a b => cmpSess a b ≤ 0) := by
  intro l
  induction l with
  | nil =>
    intro hx hl hp
    simp [jsInsert]
  | cons y ys ih =>
    intro hx hl hp
    rw [jsInsert]
    rcases List.pairwise_cons.mp hp with ⟨hyall, hys⟩
    obtain ⟨tx, htx⟩ := Option.isSome_iff_exists.mp hx
    obtain ⟨ty2, hty⟩ := Option.isSome_iff_exists.mp (hl y (List.mem_cons_self _ _))
    by_cases h : cmpSess y x < 0
    · rw [if_pos h]
      refine List.pairwise_cons.mpr ⟨?_, ?_⟩
      · intro b hb
        rcases mem_jsInsert x ys b hb with rfl | hb2
        · exact le_of_lt h
        · exact hyall b hb2
      · exact ih hx (fun z hz => hl z (List.mem_cons_of_mem _ hz)) hys
    · rw [if_neg h]
      rw [cmpSess_eq y x ty2 tx hty htx] at h
      have hxy : cmpSess x y ≤ 0 := by
        rw [cmpSess_eq x y tx ty2 htx hty]
        omega
      refine List.pairwise_cons.mpr ⟨?_, hp⟩
      intro b hb
      rcases List.mem_cons.mp hb with rfl | hb2
      · exact hxy
      · obtain ⟨tb, htb⟩ := Option.isSome_iff_exists.mp
          (hl b (List.mem_cons_of_mem _ hb2))
        have h1 := hyall b hb2
        rw [cmpSess_eq y b ty2 tb hty htb] at h1
        rw [cmpSess_eq x b tx tb htx htb]
        omega

/-- The sorted catalog contains only entries of its input. -/
lemma mem_sortSessions : ∀ (l : List SessionInfo) (y : SessionInfo),
    y ∈ sortSessions l → y ∈ l := by
  intro l
  induction l with
  | nil =>
    intro y hy
    simpa [sortSessions] using hy
  | cons x xs ih =>
    intro y hy
    rw [sortSessions] at hy
    rcases mem_jsInsert x (sortSessions xs) y hy with rfl | hy2
    · exact List.mem_cons_self _ _
    · exact List.mem_cons_of_mem _ (ih y hy2)

/-- C5 (amended): when every session being listed carries a valid
timestamp, the catalog's sort orders them by date descending (every later
entry compares not-newer).  A session lacking any timestamp yields a NaN
comparator value, which the sort treats as "equal", so the stable sort
keeps it in scan position instead of sinking it: scanning
[no-timestamp, 2024-01-01, 2024-03-01] sorts to
[no-timestamp, 2024-03-01, 2024-01-01]. -/
theorem catalog_sort_descending :
    (∀ l : List SessionInfo, (∀ z ∈ l, (jsTime z.date).isSome = true) →
      (sortSessions l).Pairwise (fun a b => cmpSess a b ≤ 0))
    ∧ sortSessions [sessNoDate, sessJan, sessMar] = [sessNoDate, sessMar, sessJan] := by
  refine ⟨?_, by decide⟩
  intro l
  induction l with
  | nil =>
    intro hv
    simp [sortSessions]
  | cons x xs ih =>
    intro hv
    rw [sortSessions]
    exact jsInsert_pairwise x (sortSessions xs)
      (hv x (List.mem_cons_self _ _))
      (fun z hz => hv z (List.mem_cons_of_mem _ (mem_sortSessions xs z hz)))
      (ih (fun z hz => hv z (List.mem_cons_of_mem _ hz)))

/-- Concrete instance of C5's amended statement: two dated sessions sort
by date descending. -/
theorem catalog_sort_descending_witness :
    (sortSessions [sessJan, sessMar]).Pairwise (fun a b => cmpSess a b ≤ 0) :=
  catalog_sort_descending.1 [sessJan, sessMar] (by decide)

/-- Counterexample to C5 as stated: with scan order
[no-timestamp, 2024-01-01, 2024-03-01] the sort does NOT produce
[2024-03-01, 2024-01-01, no-timestamp] — the no-timestamp session compares
as equal (NaN comparator ↦ +0) to every other, so it stays first; with
two entries the no-timestamp session likewise stays ahead of a dated
one. -/
theorem catalog_sort_descending_cx :
    sortSessions [sessNoDate, sessJan, sessMar] ≠ [sessMar, sessJan, sessNoDate]
    ∧ sortSessions [sessNoDate, sessJan] = [sessNoDate, sessJan] := by
  decide

end PublishClaude
